import Mathlib

/-!
Verification of the cobra.js command-tree / flag-binding engine (src/mod.ts).

The development shallowly embeds the TypeScript source: JavaScript values that
can sit in a flag's `value`/`default` slot (null, a scalar, or an array of
scalars) become the inductive `JSVal`; the `Map`-backed accessor of `FlagsImpl`
becomes an association list with overwrite-on-set semantics; mutation of
long-lived `FlagState` objects becomes explicit state passing.  JavaScript
numbers are modelled as integers (every number the library manipulates in the
flag paths is produced by the external tokenizer from decimal literals).
JS strict equality on scalars and null is structural; on arrays it is
reference equality, so every array value carries the identity `aid` of the
array object it denotes (a fresh allocation bears a fresh identity, and two
array values are the same JS object exactly when their identities agree).
Decidable equality on `JSVal` therefore coincides with JS `===` on the values
the engine manipulates.  Likewise the `fid` field on `FlagState` stands for
flag object identity.  The external minimist tokenizer is a
collaborator outside the specified core, so functions that consume its output
take that output (a key to value map and a positional-token list) as input.
-/

namespace Cobra

/-- The three flag types of `Flag.type` in src/mod.ts. -/
inductive FlagType where
  | string
  | boolean
  | number
deriving DecidableEq, Repr

/-- A scalar `FlagValue` (string | boolean | number) from src/mod.ts. -/
inductive FlagValue where
  | str (s : String)
  | bool (b : Bool)
  | num (n : Int)
deriving DecidableEq, Repr

/-- A JavaScript value occupying a flag `value`/`default` slot:
`null | FlagValue | FlagValue[]`.  An array value records the identity `aid`
of the array object alongside its contents: distinct array objects (for
instance a declared default and a fresh array the tokenizer produced) bear
distinct identities even when their contents agree, so decidable equality on
`JSVal` models JS strict equality, which compares arrays by reference. -/
inductive JSVal where
  | null
  | scalar (v : FlagValue)
  | arr (aid : Nat) (vs : List FlagValue)
deriving DecidableEq, Repr

/-- JavaScript truthiness of a `JSVal` (arrays are always truthy; `0`, `""`,
`false` and `null` are falsy). -/
def jsTruthy : JSVal → Bool
  | .null => false
  | .scalar (.str s) => s != ""
  | .scalar (.bool b) => b
  | .scalar (.num n) => n != 0
  | .arr _ _ => true

/-- `FlagState` of src/mod.ts: a `Flag` plus its mutable `value`/`changed`
dispatch state.  `fid` models JavaScript object identity (each call to
`addFlag` creates a fresh object). -/
structure FlagState where
  fid : Nat
  type : FlagType
  name : String
  short : String
  usage : String
  required : Bool
  persistent : Bool
  default : JSVal
  value : JSVal
  changed : Bool
deriving DecidableEq, Repr

/-- `FlagsImpl.defaultValue` (src/mod.ts lines 260-272): the type's zero
value.  The source's unreachable trailing `else` branch cannot arise because
`type` is one of exactly three strings. -/
def defaultValue : FlagType → FlagValue
  | .string => .str ""
  | .boolean => .bool false
  | .number => .num 0

/-- `Map.set` on the accessor map: overwrite the value at an existing key in
place, otherwise append (JS `Map` keeps first-insertion order). -/
def mapSet : List (String × FlagState) → String → FlagState → List (String × FlagState)
  | [], k, f => [(k, f)]
  | p :: rest, k, f => if p.1 == k then (k, f) :: rest else p :: mapSet rest k f

/-- `Map.get` on the accessor map. -/
def mapGet (m : List (String × FlagState)) (n : String) : Option FlagState :=
  match m.find? (fun p => p.1 == n) with
  | some p => some p.2
  | none => none

/-- The `FlagsImpl` constructor (src/mod.ts lines 240-250): register each flag
under its long name when non-empty and under its short name when non-empty. -/
def mkFlagsMap (flags : List FlagState) : List (String × FlagState) :=
  flags.foldl (fun m f =>
    let m1 := if f.name != "" then mapSet m f.name f else m
    if f.short != "" then mapSet m1 f.short f else m1) []

/-- The `??` operator restricted to the nullish value `JSVal.null`. -/
def nullish (x y : JSVal) : JSVal :=
  if x = JSVal.null then y else x

/-- `if (Array.isArray(v)) v = v[0]` followed by returning `v`: an array
yields its first element (`none` models the `undefined` that `[][0]`
produces), a scalar is returned as is. -/
def jsFirst : JSVal → Option FlagValue
  | .arr _ [] => none
  | .arr _ (x :: _) => some x
  | .scalar s => some s
  | .null => none

/-- `FlagsImpl.value` (src/mod.ts lines 274-284). -/
def value (m : List (String × FlagState)) (n : String) : Except String (Option FlagValue) :=
  match mapGet m n with
  | none => .error ("unknown flag '" ++ n ++ "'")
  | some f =>
      .ok (jsFirst (nullish f.value (nullish f.default (JSVal.scalar (defaultValue f.type)))))

/-- `FlagsImpl.values` (src/mod.ts lines 286-296): `f.value ?? []`, then a
scalar is wrapped in a one-element array.  The `[]` literal allocates a fresh
empty array; only its contents are ever consumed, so its identity is
irrelevant and fixed at 0 here. -/
def values (m : List (String × FlagState)) (n : String) : Except String (List FlagValue) :=
  match mapGet m n with
  | none => .error ("unknown flag '" ++ n ++ "'")
  | some f =>
      .ok (match nullish f.value (JSVal.arr 0 []) with
           | JSVal.arr _ vs => vs
           | JSVal.scalar s => [s]
           | JSVal.null => [])

/-- `FlagsImpl.checkRequired` (src/mod.ts lines 298-305): the `forEach` throws
at the first map entry whose flag is required and whose `default === value`.
`JSVal` equality models the strict comparison: structural on null and
scalars, and by object identity on arrays (two array values are `===`
exactly when their `aid`s agree, i.e. they denote the same array object). -/
def checkRequired (m : List (String × FlagState)) : Except String Unit :=
  match m.find? (fun p => p.2.required && p.2.default == p.2.value) with
  | some p => .error ("--" ++ p.2.name ++ " is required")
  | none => .ok ()

/-- C2: for every flag accessible through the accessor map, `value`
resolves with precedence explicit parsed value, then declared default, then
the type's zero value, and an array resolution yields its first element. -/
theorem value_spec (m : List (String × FlagState)) (n : String) (f : FlagState)
    (h : mapGet m n = some f) :
    value m n = .ok (jsFirst
      (if f.value ≠ JSVal.null then f.value
       else if f.default ≠ JSVal.null then f.default
       else JSVal.scalar (defaultValue f.type)))
    ∧ (∀ aid x xs, f.value = JSVal.arr aid (x :: xs) → value m n = .ok (some x)) := by
  constructor
  · simp only [value, h, nullish]
    by_cases h1 : f.value = JSVal.null
    · by_cases h2 : f.default = JSVal.null
      · simp [h1, h2]
      · simp [h1, h2]
    · simp [h1]
  · intro aid x xs hv
    simp [value, h, nullish, hv, jsFirst]

/-- The flag `x` bound from `--x 1 --x 2`: the tokenizer produced a fresh
array `[1, 2]` (identity 100) under its key. -/
def xTwice : FlagState :=
  { fid := 1, type := FlagType.number, name := "x", short := "", usage := "",
    required := false, persistent := false, default := JSVal.null,
    value := JSVal.arr 100 [FlagValue.num 1, FlagValue.num 2], changed := true }

/-- Witness for C2: after `--x 1 --x 2` the accessor returns the first
element `1`. -/
theorem value_spec_witness :
    value (mkFlagsMap [xTwice]) "x" = .ok (some (FlagValue.num 1)) :=
  (value_spec (mkFlagsMap [xTwice]) "x" xTwice rfl).2
    100 (FlagValue.num 1) [FlagValue.num 2] rfl

/-- C3: `values` consults only the current parsed value, never the declared
default: the parsed value is normalized to an array (scalar wrapped, unset
yields the empty array). -/
theorem values_spec (m : List (String × FlagState)) (n : String) (f : FlagState)
    (h : mapGet m n = some f) :
    values m n = .ok (match f.value with
      | JSVal.null => []
      | JSVal.arr _ vs => vs
      | JSVal.scalar s => [s]) := by
  simp only [values, h, nullish]
  cases hv : f.value with
  | null => simp [hv]
  | scalar s => simp
  | arr aid vs => simp

/-- The flag `x` bound from a single `--x 1`. -/
def xOnce : FlagState :=
  { xTwice with value := JSVal.scalar (FlagValue.num 1) }

/-- The flag `x` never given on the command line, with a non-null declared
default. -/
def xUnset : FlagState :=
  { xTwice with
    value := JSVal.null
    changed := false
    default := JSVal.scalar (FlagValue.num 7) }

/-- Witness for C3: after `--x 1 --x 2` the array accessor returns `[1, 2]`,
after a single `--x 1` it returns `[1]`, and with no occurrence it returns
`[]` even though a non-null default exists. -/
theorem values_spec_witness :
    values (mkFlagsMap [xTwice]) "x" = .ok [FlagValue.num 1, FlagValue.num 2]
    ∧ values (mkFlagsMap [xOnce]) "x" = .ok [FlagValue.num 1]
    ∧ values (mkFlagsMap [xUnset]) "x" = .ok [] :=
  ⟨values_spec (mkFlagsMap [xTwice]) "x" xTwice rfl,
   values_spec (mkFlagsMap [xOnce]) "x" xOnce rfl,
   values_spec (mkFlagsMap [xUnset]) "x" xUnset rfl⟩

/-- C8: `checkRequired` succeeds exactly when no flag in the accessor map is
required with its current value still strictly equal to its declared default,
and every failure names such a flag. -/
theorem checkRequired_spec (m : List (String × FlagState)) :
    (checkRequired m = .ok () ↔
      ∀ p ∈ m, ¬(p.2.required = true ∧ p.2.default = p.2.value))
    ∧ (∀ e, checkRequired m = .error e →
        ∃ p ∈ m, p.2.required = true ∧ p.2.default = p.2.value
          ∧ e = "--" ++ p.2.name ++ " is required") := by
  constructor
  · constructor
    · intro h p hp hcon
      cases hf : m.find? (fun p => p.2.required && p.2.default == p.2.value) with
      | some q => simp [checkRequired, hf] at h
      | none =>
          have := List.find?_eq_none.mp hf p hp
          simp only [Bool.and_eq_true, beq_iff_eq] at this
          exact this ⟨hcon.1, hcon.2⟩
    · intro h
      cases hf : m.find? (fun p => p.2.required && p.2.default == p.2.value) with
      | some q =>
          have hq := List.find?_some hf
          have hqm := List.mem_of_find?_eq_some hf
          simp only [Bool.and_eq_true, beq_iff_eq] at hq
          exact absurd ⟨hq.1, hq.2⟩ (h q hqm)
      | none => simp [checkRequired, hf]
  · intro e he
    cases hf : m.find? (fun p => p.2.required && p.2.default == p.2.value) with
    | some q =>
        have hq := List.find?_some hf
        have hqm := List.mem_of_find?_eq_some hf
        simp only [Bool.and_eq_true, beq_iff_eq] at hq
        simp only [checkRequired, hf, Except.error.injEq] at he
        exact ⟨q, hqm, hq.1, hq.2, he.symm⟩
    | none => simp [checkRequired, hf] at he

/-- A required flag never provided: its `value` and `default` are both
`null`, so they compare strictly equal. -/
def reqUnset : FlagState :=
  { fid := 2, type := FlagType.string, name := "out", short := "",
    usage := "", required := true, persistent := false,
    default := JSVal.null, value := JSVal.null, changed := false }

/-- A required flag whose bound value differs from its default. -/
def reqBound : FlagState :=
  { reqUnset with value := JSVal.scalar (FlagValue.str "a.txt"), changed := true }

/-- A required flag with the array default `[1, 2]` (object identity 5) that
was explicitly re-passed as `--files 1 --files 2`: binding stored the fresh
array the tokenizer produced — same contents, a different object
(identity 6). -/
def reqArrFresh : FlagState :=
  { fid := 3, type := FlagType.number, name := "files", short := "",
    usage := "", required := true, persistent := false,
    default := JSVal.arr 5 [FlagValue.num 1, FlagValue.num 2],
    value := JSVal.arr 6 [FlagValue.num 1, FlagValue.num 2], changed := true }

/-- The same flag when not provided at all: the tokenizer hands the
configured default through by reference, so the value slot holds the very
default object (identity 5). -/
def reqArrAlias : FlagState :=
  { reqArrFresh with
    value := JSVal.arr 5 [FlagValue.num 1, FlagValue.num 2]
    changed := false }

/-- Witness for C8: a required flag with `value` and `default` both unset
fails and the error names the flag; a required flag whose bound value differs
from its default passes — including an array default explicitly re-passed
with identical contents, which is a distinct object and therefore not
strictly equal — while a value slot holding the default object itself still
fails. -/
theorem checkRequired_spec_witness :
    (∃ p ∈ mkFlagsMap [reqUnset], p.2.required = true ∧ p.2.default = p.2.value
      ∧ "--out is required" = "--" ++ p.2.name ++ " is required")
    ∧ checkRequired (mkFlagsMap [reqBound]) = .ok ()
    ∧ checkRequired (mkFlagsMap [reqArrFresh]) = .ok ()
    ∧ (∃ p ∈ mkFlagsMap [reqArrAlias], p.2.required = true ∧ p.2.default = p.2.value
        ∧ "--files is required" = "--" ++ p.2.name ++ " is required") :=
  ⟨(checkRequired_spec (mkFlagsMap [reqUnset])).2 "--out is required" rfl,
   ((checkRequired_spec (mkFlagsMap [reqBound])).1).mpr (by decide),
   ((checkRequired_spec (mkFlagsMap [reqArrFresh])).1).mpr (by decide),
   (checkRequired_spec (mkFlagsMap [reqArrAlias])).2 "--files is required" rfl⟩

/-- `FlagInput` of src/mod.ts combined with the `flag(...)` defaulting helper
(lines 224-235): `usage`, `required`, `persistent` default as in `flag`, and
`name`/`short` may be absent. -/
structure FlagInput where
  type : FlagType
  name : Option String := none
  short : Option String := none
  usage : String := ""
  required : Bool := false
  persistent : Bool := false
  default : JSVal := JSVal.null

/-- The flag object built by `addFlag` before registration: `flag(f)` followed
by the `pf.name = pf.name ?? ""` / `pf.short = pf.short ?? ""` normalization
(src/mod.ts lines 476-479).  `fid` is the fresh object identity. -/
def mkFlag (fid : Nat) (fi : FlagInput) : FlagState :=
  { fid := fid, type := fi.type, name := fi.name.getD "", short := fi.short.getD "",
    usage := fi.usage, required := fi.required, persistent := fi.persistent,
    default := fi.default, value := JSVal.null, changed := false }

/-- The conflict test of `Command.checkFlags` (src/mod.ts lines 438-443): a
shared non-empty long name or a shared non-empty short name. -/
def flagConflicts (cand v : FlagState) : Bool :=
  (cand.name != "" && v.name != "" && cand.name == v.name) ||
  (cand.short != "" && v.short != "" && cand.short == v.short)

/-- `Command.checkFlags` (src/mod.ts lines 436-456) over the chain of flag
lists from the node itself up through its ancestors: throw on the first list
containing a conflicting flag, otherwise recurse to the parent and return
`false` at the root. -/
def checkFlags : List (List FlagState) → FlagState → Except String Bool
  | [], _ => .ok false
  | own :: rest, cand =>
      match own.filter (flagConflicts cand) with
      | [] => checkFlags rest cand
      | c :: _ =>
          .error ("--" ++ cand.name ++ " has conflict with: --" ++ c.name ++ " "
            ++ (if c.short != "" then "-" ++ c.short else ""))

/-- `Command.addFlag` (src/mod.ts lines 476-483): normalize, check the whole
visibility chain, then append to the node's own list and return the flag. -/
def addFlag (own : List FlagState) (ancestors : List (List FlagState))
    (fid : Nat) (fi : FlagInput) : Except String (List FlagState × FlagState) :=
  match checkFlags (own :: ancestors) (mkFlag fid fi) with
  | .error e => .error e
  | .ok _ => .ok (own ++ [mkFlag fid fi], mkFlag fid fi)

theorem flagConflicts_iff (cand g : FlagState) :
    flagConflicts cand g = true ↔
      ((cand.name ≠ "" ∧ g.name ≠ "" ∧ cand.name = g.name) ∨
       (cand.short ≠ "" ∧ g.short ≠ "" ∧ cand.short = g.short)) := by
  simp [flagConflicts, Bool.or_eq_true, Bool.and_eq_true, bne_iff_ne, beq_iff_eq,
    and_assoc]

theorem checkFlags_error_iff (chain : List (List FlagState)) (cand : FlagState) :
    (∃ e, checkFlags chain cand = .error e) ↔
      ∃ fl ∈ chain, ∃ g ∈ fl, flagConflicts cand g = true := by
  induction chain with
  | nil => simp [checkFlags]
  | cons own rest ih =>
      cases hf : own.filter (flagConflicts cand) with
      | nil =>
          have hnone : ∀ g ∈ own, ¬flagConflicts cand g = true :=
            List.filter_eq_nil_iff.mp hf
          constructor
          · intro h
            simp only [checkFlags, hf] at h
            obtain ⟨fl, hfl, g, hg, hcg⟩ := ih.mp h
            exact ⟨fl, List.mem_cons_of_mem _ hfl, g, hg, hcg⟩
          · rintro ⟨fl, hfl, g, hg, hcg⟩
            rcases List.mem_cons.mp hfl with h1 | h1
            · exact absurd hcg (hnone g (h1 ▸ hg))
            · have := ih.mpr ⟨fl, h1, g, hg, hcg⟩
              simpa [checkFlags, hf] using this
      | cons c cs =>
          constructor
          · intro _
            have hc : c ∈ own.filter (flagConflicts cand) := by
              rw [hf]; exact List.mem_cons_self c cs
            have := List.mem_filter.mp hc
            exact ⟨own, List.mem_cons_self _ _, c, this.1, this.2⟩
          · intro _
            simp only [checkFlags, hf]
            exact ⟨_, rfl⟩

/-- C4: `addFlag` fails exactly when the normalized candidate shares a
non-empty long name or a non-empty short name with a flag registered on the
node or on any ancestor (the condition never consults the `persistent` bit);
on success the normalized flag (missing name/short replaced by empty strings)
is appended to the node's own list and returned. -/
theorem addFlag_spec (own : List FlagState) (ancestors : List (List FlagState))
    (fid : Nat) (fi : FlagInput) :
    ((∃ e, addFlag own ancestors fid fi = .error e) ↔
      ∃ g, (g ∈ own ∨ ∃ anc ∈ ancestors, g ∈ anc) ∧
        (((mkFlag fid fi).name ≠ "" ∧ g.name ≠ "" ∧ (mkFlag fid fi).name = g.name) ∨
         ((mkFlag fid fi).short ≠ "" ∧ g.short ≠ "" ∧ (mkFlag fid fi).short = g.short)))
    ∧ (∀ own2 pf, addFlag own ancestors fid fi = .ok (own2, pf) →
        own2 = own ++ [mkFlag fid fi] ∧ pf = mkFlag fid fi ∧
        pf.name = fi.name.getD "" ∧ pf.short = fi.short.getD "") := by
  constructor
  · constructor
    · rintro ⟨e, he⟩
      have herr : ∃ e, checkFlags (own :: ancestors) (mkFlag fid fi) = .error e := by
        cases hc : checkFlags (own :: ancestors) (mkFlag fid fi) with
        | error e2 => exact ⟨e2, rfl⟩
        | ok b => simp [addFlag, hc] at he
      obtain ⟨fl, hfl, g, hg, hcg⟩ := (checkFlags_error_iff _ _).mp herr
      refine ⟨g, ?_, (flagConflicts_iff _ _).mp hcg⟩
      rcases List.mem_cons.mp hfl with h1 | h1
      · exact Or.inl (h1 ▸ hg)
      · exact Or.inr ⟨fl, h1, hg⟩
    · rintro ⟨g, hmem, hshare⟩
      have herr : ∃ e, checkFlags (own :: ancestors) (mkFlag fid fi) = .error e := by
        refine (checkFlags_error_iff _ _).mpr ?_
        rcases hmem with h1 | ⟨anc, hanc, h2⟩
        · exact ⟨own, List.mem_cons_self _ _, g, h1, (flagConflicts_iff _ _).mpr hshare⟩
        · exact ⟨anc, List.mem_cons_of_mem _ hanc, g, h2, (flagConflicts_iff _ _).mpr hshare⟩
      obtain ⟨e, he⟩ := herr
      exact ⟨e, by simp [addFlag, he]⟩
  · intro own2 pf h
    cases hc : checkFlags (own :: ancestors) (mkFlag fid fi) with
    | error e => simp [addFlag, hc] at h
    | ok b =>
        simp only [addFlag, hc, Except.ok.injEq, Prod.mk.injEq] at h
        exact ⟨h.1.symm, h.2.symm, by simp [h.2.symm, mkFlag], by simp [h.2.symm, mkFlag]⟩

/-- Input for a flag with a long name only. -/
def outInput : FlagInput :=
  { type := FlagType.string, name := some "out" }

/-- Witness for C4: registering `--out` on a node with no flags and no
ancestors succeeds, appends the normalized flag, and returns it with the
missing short name normalized to the empty string. -/
theorem addFlag_spec_witness :
    [mkFlag 5 outInput] = [] ++ [mkFlag 5 outInput] ∧ mkFlag 5 outInput = mkFlag 5 outInput ∧
      (mkFlag 5 outInput).name = "out" ∧ (mkFlag 5 outInput).short = "" :=
  (addFlag_spec [] [] 5 outInput).2 [mkFlag 5 outInput] (mkFlag 5 outInput) rfl

/-- One `pf.forEach` iteration of `Command.getFlags` (src/mod.ts lines
498-502): push the flag unless it is already present, where presence is
`indexOf`, i.e. object identity (modelled by structural equality together
with the identity field `fid`). -/
def pushUnique (fs : List FlagState) (f : FlagState) : List FlagState :=
  if f ∈ fs then fs else fs ++ [f]

/-- Processing one ancestor in `Command.getFlags`: push each of its
persistent flags that is not already present.  The source's
`if (cmd.flags.length)` guard is a no-op on the empty filter. -/
def getFlagsStep (fs : List FlagState) (ancestorFlags : List FlagState) : List FlagState :=
  (ancestorFlags.filter (fun f => f.persistent)).foldl pushUnique fs

/-- `Command.getFlags` (src/mod.ts lines 490-507).  The source initializes
`flags` as an alias of `this.flags` and pushes into it, so the returned list
IS the node's own flag list after the call; the model returns that new list
(result and post-state coincide). -/
def getFlags (own : List FlagState) (ancestors : List (List FlagState)) : List FlagState :=
  ancestors.foldl getFlagsStep own

theorem mem_foldl_pushUnique_of_mem_init {g : FlagState} (l : List FlagState)
    (fs : List FlagState) (h : g ∈ fs) : g ∈ l.foldl pushUnique fs := by
  induction l generalizing fs with
  | nil => exact h
  | cons f rest ih =>
      refine ih _ ?_
      unfold pushUnique
      split
      · exact h
      · exact List.mem_append_left _ h

theorem mem_foldl_pushUnique_of_mem {g : FlagState} (l : List FlagState)
    (fs : List FlagState) (h : g ∈ l) : g ∈ l.foldl pushUnique fs := by
  induction l generalizing fs with
  | nil => exact absurd h (List.not_mem_nil g)
  | cons f rest ih =>
      rcases List.mem_cons.mp h with h1 | h1
      · subst h1
        refine mem_foldl_pushUnique_of_mem_init rest _ ?_
        unfold pushUnique
        split
        · assumption
        · exact List.mem_append_right _ (List.mem_singleton.mpr rfl)
      · exact ih _ h1

theorem foldl_pushUnique_append (l : List FlagState) (fs : List FlagState) :
    ∃ t, l.foldl pushUnique fs = fs ++ t := by
  induction l generalizing fs with
  | nil => exact ⟨[], by simp⟩
  | cons f rest ih =>
      unfold pushUnique
      simp only [List.foldl_cons]
      split
      · exact ih fs
      · obtain ⟨t, ht⟩ := ih (fs ++ [f])
        exact ⟨[f] ++ t, by simpa [List.append_assoc] using ht⟩

theorem foldl_pushUnique_nodup (l : List FlagState) (fs : List FlagState)
    (h : fs.Nodup) : (l.foldl pushUnique fs).Nodup := by
  induction l generalizing fs with
  | nil => exact h
  | cons f rest ih =>
      refine ih _ ?_
      unfold pushUnique
      split
      · exact h
      · simpa [List.nodup_append] using ⟨h, by assumption⟩

theorem mem_foldl_pushUnique_elim {g : FlagState} (l : List FlagState)
    (fs : List FlagState) (h : g ∈ l.foldl pushUnique fs) : g ∈ fs ∨ g ∈ l := by
  induction l generalizing fs with
  | nil => exact Or.inl h
  | cons f rest ih =>
      simp only [List.foldl_cons] at h
      rcases ih _ h with h1 | h1
      · unfold pushUnique at h1
        split at h1
        · exact Or.inl h1
        · rcases List.mem_append.mp h1 with h2 | h2
          · exact Or.inl h2
          · exact Or.inr (List.mem_cons.mpr (Or.inl (List.mem_singleton.mp h2)))
      · exact Or.inr (List.mem_cons_of_mem _ h1)

theorem getFlags_mem_of_mem_init {g : FlagState} (ancestors : List (List FlagState))
    (own : List FlagState) (h : g ∈ own) : g ∈ getFlags own ancestors := by
  induction ancestors generalizing own with
  | nil => exact h
  | cons anc rest ih =>
      exact ih _ (mem_foldl_pushUnique_of_mem_init _ _ h)

/-- C10: `getFlags` appends into the node's own flag list (and returns that
very list): its result extends the prior own list, contains every ancestor
flag marked persistent, keeps each flag object at most once, and contains
nothing beyond the own flags and ancestor persistent flags. -/
theorem getFlags_spec (own : List FlagState) (ancestors : List (List FlagState)) :
    (∃ added, getFlags own ancestors = own ++ added)
    ∧ (∀ anc ∈ ancestors, ∀ f ∈ anc, f.persistent = true → f ∈ getFlags own ancestors)
    ∧ (own.Nodup → (getFlags own ancestors).Nodup)
    ∧ (∀ g ∈ getFlags own ancestors,
        g ∈ own ∨ ∃ anc ∈ ancestors, g ∈ anc ∧ g.persistent = true) := by
  refine ⟨?_, ?_, ?_, ?_⟩
  · induction ancestors generalizing own with
    | nil => exact ⟨[], by simp [getFlags]⟩
    | cons anc rest ih =>
        obtain ⟨t1, ht1⟩ := foldl_pushUnique_append (anc.filter (fun f => f.persistent)) own
        obtain ⟨t2, ht2⟩ := ih (getFlagsStep own anc)
        refine ⟨t1 ++ t2, ?_⟩
        simp only [getFlags, List.foldl_cons] at ht2 ⊢
        rw [ht2, getFlagsStep, ht1, List.append_assoc]
  · intro anc hanc f hf hp
    induction ancestors generalizing own with
    | nil => exact absurd hanc (List.not_mem_nil anc)
    | cons a rest ih =>
        rcases List.mem_cons.mp hanc with h1 | h1
        · subst h1
          refine getFlags_mem_of_mem_init rest _ ?_
          exact mem_foldl_pushUnique_of_mem _ _
            (List.mem_filter.mpr ⟨hf, by simpa using hp⟩)
        · exact ih _ h1
  · intro hnd
    induction ancestors generalizing own with
    | nil => exact hnd
    | cons anc rest ih =>
        exact ih _ (foldl_pushUnique_nodup _ _ hnd)
  · intro g hg
    induction ancestors generalizing own with
    | nil => exact Or.inl hg
    | cons anc rest ih =>
        rcases ih _ hg with h1 | ⟨a, ha, hga, hgp⟩
        · rcases mem_foldl_pushUnique_elim _ _ h1 with h2 | h2
          · exact Or.inl h2
          · have := List.mem_filter.mp h2
            exact Or.inr ⟨anc, List.mem_cons_self _ _, this.1, by simpa using this.2⟩
        · exact Or.inr ⟨a, List.mem_cons_of_mem _ ha, hga, hgp⟩

/-- A persistent flag declared on the root. -/
def rootPersistent : FlagState :=
  { fid := 10, type := FlagType.boolean, name := "verbose", short := "v",
    usage := "", required := false, persistent := true,
    default := JSVal.null, value := JSVal.null, changed := false }

/-- A plain local flag on a child node. -/
def childLocal : FlagState :=
  { fid := 11, type := FlagType.string, name := "out", short := "",
    usage := "", required := false, persistent := false,
    default := JSVal.null, value := JSVal.null, changed := false }

/-- Witness for C10: after a single `getFlags` call on a child owning one
flag under a root with one persistent flag, the root's persistent flag object
is a member of the child's (returned, aliased) flag list. -/
theorem getFlags_spec_witness :
    rootPersistent ∈ getFlags [childLocal] [[rootPersistent]] :=
  (getFlags_spec [childLocal] [[rootPersistent]]).2.1 [rootPersistent]
    (List.mem_singleton.mpr rfl) rootPersistent (List.mem_singleton.mpr rfl) rfl

/-- The canonical parser key of a flag (src/mod.ts lines 729, 753): the short
name when non-empty, else the long name. -/
def flagKey (f : FlagState) : String :=
  if f.short != "" then f.short else f.name

/-- Assignment into the `parseOpts.default` object: overwrite an existing key,
otherwise append. -/
def dmapSet : List (String × JSVal) → String → JSVal → List (String × JSVal)
  | [], k, v => [(k, v)]
  | p :: rest, k, v => if p.1 == k then (k, v) :: rest else p :: dmapSet rest k v

/-- Property read from the `parseOpts.default` object. -/
def dmapGet : List (String × JSVal) → String → Option JSVal
  | [], _ => none
  | p :: rest, k => if p.1 == k then some p.2 else dmapGet rest k

/-- The default-value map derived in `RootCommand.execute` (src/mod.ts lines
735-738): `if (f.default) { parseOpts.default[key] = f.default }` — note the
JavaScript truthiness test on the declared default. -/
def buildDefaults (flags : List FlagState) : List (String × JSVal) :=
  flags.foldl
    (fun m f => if jsTruthy f.default then dmapSet m (flagKey f) f.default else m) []

/-- The per-flag binding step of `RootCommand.execute` (reset at lines 728 and
752, assignment at lines 754-761): the flag's `value` is reset to `null` and
`changed` to `false`; when the parser produced a binding under the flag's key
(`key in argv`, a membership test, not a truthiness test) the parsed value is
assigned and `changed` becomes `true` unless the key has a truthy entry in the
derived default map equal to the parsed value.  `argv` is the key-to-value
output of the external tokenizer. -/
def bindFlag (argv : String → Option JSVal) (defaults : List (String × JSVal))
    (f : FlagState) : FlagState :=
  let f0 := { f with changed := false, value := JSVal.null }
  match argv (flagKey f) with
  | none => f0
  | some v =>
      let ch := match dmapGet defaults (flagKey f) with
        | some d => if jsTruthy d then v != d else true
        | none => true
      { f0 with value := v, changed := ch }

/-- C6: when the parser produced a value under an effective flag's key — even
numeric zero or the empty string — binding assigns it to the flag's value slot
and sets `changed` to `true` whenever the parsed value differs from the
configured default, and unconditionally when no default is configured. -/
theorem bindFlag_explicit (argv : String → Option JSVal)
    (defaults : List (String × JSVal)) (f : FlagState) (v : JSVal)
    (hv : argv (flagKey f) = some v)
    (hd : dmapGet defaults (flagKey f) =
      (if jsTruthy f.default then some f.default else none)) :
    (bindFlag argv defaults f).value = v
    ∧ (v ≠ f.default → (bindFlag argv defaults f).changed = true)
    ∧ (f.default = JSVal.null → (bindFlag argv defaults f).changed = true) := by
  by_cases ht : jsTruthy f.default = true
  · simp only [ht, if_pos] at hd
    refine ⟨by simp [bindFlag, hv, hd], ?_, ?_⟩
    · intro hne
      simp [bindFlag, hv, hd, ht, bne_iff_ne, hne]
    · intro h0
      rw [h0] at ht
      simp [jsTruthy] at ht
  · have hd2 : dmapGet defaults (flagKey f) = none := by
      rw [hd, if_neg ht]
    exact ⟨by simp [bindFlag, hv, hd2], fun _ => by simp [bindFlag, hv, hd2],
      fun _ => by simp [bindFlag, hv, hd2]⟩

/-- A numeric flag `x` with the truthy declared default `8080`. -/
def portFlag : FlagState :=
  { fid := 20, type := FlagType.number, name := "x", short := "",
    usage := "", required := false, persistent := false,
    default := JSVal.scalar (FlagValue.num 8080), value := JSVal.null,
    changed := false }

/-- The tokenizer output for `--x 0` against `portFlag`'s configuration. -/
def argvZero : String → Option JSVal :=
  fun k => if k == "x" then some (JSVal.scalar (FlagValue.num 0)) else none

/-- Witness for C6: with declared default `8080`, the explicit `--x 0` binds
value `0` with `changed = true`, and the bound flag reads back as `0`. -/
theorem bindFlag_explicit_witness :
    (bindFlag argvZero (buildDefaults [portFlag]) portFlag).value =
      JSVal.scalar (FlagValue.num 0)
    ∧ (bindFlag argvZero (buildDefaults [portFlag]) portFlag).changed = true
    ∧ value (mkFlagsMap [bindFlag argvZero (buildDefaults [portFlag]) portFlag]) "x" =
        .ok (some (FlagValue.num 0)) :=
  ⟨(bindFlag_explicit argvZero (buildDefaults [portFlag]) portFlag
      (JSVal.scalar (FlagValue.num 0)) rfl rfl).1,
   (bindFlag_explicit argvZero (buildDefaults [portFlag]) portFlag
      (JSVal.scalar (FlagValue.num 0)) rfl rfl).2.1 (by decide),
   rfl⟩

/-- A numeric flag `x` whose declared default is `0`: non-null but falsy. -/
def zeroDefaultFlag : FlagState :=
  { portFlag with fid := 21, default := JSVal.scalar (FlagValue.num 0) }

/-- Counterexample for C7: `zeroDefaultFlag` has a non-null declared default,
yet the derived default-value map contains no entry for its key — the source
tests JavaScript truthiness of the default, which drops `0`, `false` and the
empty string. -/
theorem buildDefaults_drops_falsy :
    zeroDefaultFlag.default ≠ JSVal.null
    ∧ dmapGet (buildDefaults [zeroDefaultFlag]) (flagKey zeroDefaultFlag) = none := by
  decide

theorem dmapGet_dmapSet_isSome (m : List (String × JSVal)) (k : String) (v : JSVal)
    (k2 : String) :
    (dmapGet (dmapSet m k v) k2).isSome = (k2 == k || (dmapGet m k2).isSome) := by
  induction m with
  | nil =>
      by_cases h : k2 = k
      · subst h
        simp [dmapSet, dmapGet]
      · simp [dmapSet, dmapGet, beq_false_of_ne (Ne.symm h), beq_false_of_ne h]
  | cons p rest ih =>
      by_cases h1 : p.1 = k
      · by_cases h2 : k2 = k
        · subst h2
          simp [dmapSet, dmapGet, h1]
        · simp [dmapSet, dmapGet, h1, beq_false_of_ne (Ne.symm h2), beq_false_of_ne h2,
            beq_false_of_ne (show p.1 ≠ k2 by rw [h1]; exact Ne.symm h2)]
      · by_cases h2 : p.1 = k2
        · have hk : k2 ≠ k := by rw [← h2]; exact h1
          simp [dmapSet, dmapGet, beq_false_of_ne h1, h2, beq_false_of_ne hk, ih]
        · simp [dmapSet, dmapGet, beq_false_of_ne h1, beq_false_of_ne h2, ih]

/-- Amended C7: the derived default-value map has an entry under a key exactly
when some effective flag with that key has a truthy declared default —
non-null defaults of `0`, `false` and `""` are omitted. -/
theorem buildDefaults_mem_iff (flags : List FlagState) (k : String) :
    (dmapGet (buildDefaults flags) k).isSome = true ↔
      ∃ f ∈ flags, flagKey f = k ∧ jsTruthy f.default = true := by
  have main : ∀ (l : List FlagState) (m : List (String × JSVal)),
      (dmapGet (l.foldl
        (fun m f => if jsTruthy f.default then dmapSet m (flagKey f) f.default else m) m) k).isSome
      = ((dmapGet m k).isSome || l.any (fun f => flagKey f == k && jsTruthy f.default)) := by
    intro l
    induction l with
    | nil => simp
    | cons f rest ih =>
        intro m
        simp only [List.foldl_cons, List.any_cons]
        by_cases ht : jsTruthy f.default = true
        · rw [if_pos ht, ih, dmapGet_dmapSet_isSome]
          by_cases hk : k = flagKey f
          · simp [hk, ht]
          · simp [beq_false_of_ne hk, beq_false_of_ne (fun h => hk h.symm), ht]
        · have ht2 : jsTruthy f.default = false := by
            simpa [Bool.not_eq_true] using ht
          rw [if_neg (by simp [ht2]), ih]
          simp [ht2]
  have h0 : (dmapGet ([] : List (String × JSVal)) k).isSome = false := by
    simp [dmapGet, List.find?]
  rw [buildDefaults, main, h0, Bool.false_or, List.any_eq_true]
  constructor
  · rintro ⟨f, hf, hp⟩
    simp only [Bool.and_eq_true, beq_iff_eq] at hp
    exact ⟨f, hf, hp.1, hp.2⟩
  · rintro ⟨f, hf, h1, h2⟩
    exact ⟨f, hf, by simp [h1, h2]⟩

/-- A string flag with the truthy default `"info"`. -/
def levelFlag : FlagState :=
  { fid := 22, type := FlagType.string, name := "level", short := "",
    usage := "", required := false, persistent := false,
    default := JSVal.scalar (FlagValue.str "info"), value := JSVal.null,
    changed := false }

/-- Witness for the amended C7: a truthy default produces an entry under the
flag's key. -/
theorem buildDefaults_mem_iff_witness :
    (dmapGet (buildDefaults [levelFlag]) "level").isSome = true :=
  (buildDefaults_mem_iff [levelFlag] "level").mpr
    ⟨levelFlag, List.mem_singleton.mpr rfl, rfl, rfl⟩

/-- The implicit `help`/`h` boolean flag the `RootCommand` constructor adds
(src/mod.ts lines 639-645); it is persistent, so it is in the effective set of
every resolved command and is bound on every dispatch. -/
def rootHelpFlag (rootName : String) : FlagState :=
  { fid := 0, type := FlagType.boolean, name := "help", short := "h",
    usage := "display " ++ rootName ++ "'s help", required := false,
    persistent := true, default := JSVal.null, value := JSVal.null,
    changed := false }

/-- Outcome of the tail of `RootCommand.execute`: the exit code, whether
long-form help was rendered for the resolved command, and whether the
resolved command's handler was invoked. -/
structure ExecOutcome where
  exitCode : Int
  helpedLong : Bool
  handlerInvoked : Bool
deriving DecidableEq, Repr

/-- The `HELP_CHECK`/`RUN` tail of `RootCommand.execute` (src/mod.ts lines
767-772): if the bound implicit help flag's value is truthy, render
`cmd.help(true)` and return 1; otherwise invoke the resolved handler and
return its exit code. -/
def finishExecute (boundHelp : FlagState) (handlerExit : Int) : ExecOutcome :=
  if jsTruthy boundHelp.value then
    { exitCode := 1, helpedLong := true, handlerInvoked := false }
  else
    { exitCode := handlerExit, helpedLong := false, handlerInvoked := true }

/-- The post-resolution dispatch pipeline for the root's help flag: derive the
parser defaults from the effective flag set, bind the implicit help flag from
the tokenizer output, and run the `HELP_CHECK`/`RUN` tail. -/
def dispatchFromBind (flags : List FlagState) (argv : String → Option JSVal)
    (rootName : String) (handlerExit : Int) : ExecOutcome :=
  finishExecute (bindFlag argv (buildDefaults flags) (rootHelpFlag rootName))
    handlerExit

/-- C5: whenever the root's implicit help flag binds to `true`, execute
renders long-form help for the resolved command and returns exit code 1
without invoking the resolved command's handler. -/
theorem dispatch_help_short_circuit (flags : List FlagState)
    (argv : String → Option JSVal) (rootName : String) (handlerExit : Int)
    (h : (bindFlag argv (buildDefaults flags) (rootHelpFlag rootName)).value =
      JSVal.scalar (FlagValue.bool true)) :
    dispatchFromBind flags argv rootName handlerExit =
      { exitCode := 1, helpedLong := true, handlerInvoked := false } := by
  simp [dispatchFromBind, finishExecute, h, jsTruthy]

/-- The tokenizer output for an argument list containing `-h`. -/
def argvHelp : String → Option JSVal :=
  fun k => if k == "h" then some (JSVal.scalar (FlagValue.bool true)) else none

/-- Witness for C5: dispatching with the help flag given yields exit code 1,
a long-form help render, and no handler invocation. -/
theorem dispatch_help_short_circuit_witness :
    dispatchFromBind [rootHelpFlag "app"] argvHelp "app" 0 =
      { exitCode := 1, helpedLong := true, handlerInvoked := false } :=
  dispatch_help_short_circuit [rootHelpFlag "app"] argvHelp "app" 0 rfl

/-- `get name()` of src/mod.ts lines 582-589: the text before the first space
of the usage string, except that a space at position 0 (or none at all)
leaves the usage string whole. -/
def cmdName (use : String) : String :=
  match use.toList.findIdx? (fun ch => ch == ' ') with
  | some i => if 0 < i then String.mk (use.toList.take i) else use
  | none => use

/-- A command-tree node: its usage string and its ordered child list.  This is
the downward view of `Command` that `matchCmd` consumes. -/
inductive CmdT where
  | mk (use : String) (children : List CmdT)

/-- The node's usage string. -/
def CmdT.use : CmdT → String
  | .mk u _ => u

/-- The node's ordered child list. -/
def CmdT.children : CmdT → List CmdT
  | .mk _ cs => cs

/-- The node's matchable name: the first word of its usage string. -/
def CmdT.name (c : CmdT) : String := cmdName c.use

/-- The token-consuming loop of `RootCommand.matchCmd` (src/mod.ts lines
654-681), applied to the positional tokens the external tokenizer extracted
(`argv._`, stringified): shift a verb, collect children whose name equals it;
more than one match throws, zero matches pushes the verb back and stops, one
match descends. -/
def matchCmd (cmd : CmdT) : List String → Except String (CmdT × List String)
  | [] => Except.ok (cmd, [])
  | verb :: rest =>
      match cmd.children.filter (fun c => c.name == verb) with
      | [] => Except.ok (cmd, verb :: rest)
      | [c] => matchCmd c rest
      | _ => Except.error ("ambiguous command " ++ verb)

/-- Declarative resolution: the deepest node reachable by consuming leading
tokens that each name exactly one direct child, stopping when the tokens are
exhausted or when the next token matches no child (that token is pushed back
and heads the leftover positional arguments). -/
inductive Resolves : CmdT → List String → CmdT → List String → Prop where
  | exhausted (cmd : CmdT) : Resolves cmd [] cmd []
  | noMatch (cmd : CmdT) (verb : String) (rest : List String)
      (hnone : cmd.children.countP (fun c => c.name == verb) = 0) :
      Resolves cmd (verb :: rest) cmd (verb :: rest)
  | descend (cmd : CmdT) (verb : String) (rest : List String) (c out : CmdT)
      (rem : List String)
      (hone : cmd.children.filter (fun x => x.name == verb) = [c])
      (hr : Resolves c rest out rem) :
      Resolves cmd (verb :: rest) out rem

/-- Declarative ambiguity: along the unique-match descent some token matches
more than one sibling child. -/
inductive Ambiguous : CmdT → List String → String → Prop where
  | here (cmd : CmdT) (verb : String) (rest : List String)
      (hmany : 1 < cmd.children.countP (fun c => c.name == verb)) :
      Ambiguous cmd (verb :: rest) verb
  | deeper (cmd : CmdT) (verb : String) (rest : List String) (c : CmdT)
      (t : String)
      (hone : cmd.children.filter (fun x => x.name == verb) = [c])
      (ha : Ambiguous c rest t) :
      Ambiguous cmd (verb :: rest) t

/-- C1: command resolution returns the deepest command reachable by consuming
leading positional tokens that name direct children, with the leftover tokens
as positional arguments (an unmatched token is pushed back and resolution
stops), and fails exactly with an ambiguity error naming a token that matched
more than one sibling child. -/
theorem matchCmd_spec (cmd : CmdT) (args : List String) :
    (∀ out rem, matchCmd cmd args = Except.ok (out, rem) ↔ Resolves cmd args out rem)
    ∧ (∀ e, matchCmd cmd args = Except.error e ↔
        ∃ t, e = "ambiguous command " ++ t ∧ Ambiguous cmd args t) := by
  induction args generalizing cmd with
  | nil =>
      refine ⟨fun out rem => ⟨fun h => ?_, fun h => ?_⟩, fun e => ⟨fun h => ?_, fun h => ?_⟩⟩
      · simp only [matchCmd, Except.ok.injEq, Prod.mk.injEq] at h
        obtain ⟨h1, h2⟩ := h
        subst h1; subst h2
        exact Resolves.exhausted cmd
      · cases h
        rfl
      · simp [matchCmd] at h
      · obtain ⟨t, _, ht⟩ := h
        cases ht
  | cons verb rest ih =>
      cases hf : cmd.children.filter (fun c => c.name == verb) with
      | nil =>
          have hcount : cmd.children.countP (fun c => c.name == verb) = 0 := by
            rw [List.countP_eq_length_filter, hf]
            rfl
          refine ⟨fun out rem => ⟨fun h => ?_, fun h => ?_⟩,
            fun e => ⟨fun h => ?_, fun h => ?_⟩⟩
          · simp only [matchCmd, hf, Except.ok.injEq, Prod.mk.injEq] at h
            obtain ⟨h1, h2⟩ := h
            subst h1; subst h2
            exact Resolves.noMatch cmd verb rest hcount
          · cases h with
            | noMatch _ _ _ hnone => simp [matchCmd, hf]
            | descend _ _ _ c out2 rem2 hone hr =>
                rw [hf] at hone
                cases hone
          · simp [matchCmd, hf] at h
          · obtain ⟨t, he, ht⟩ := h
            cases ht with
            | here _ _ _ hmany =>
                rw [hcount] at hmany
                exact absurd hmany (by omega)
            | deeper _ _ _ c t2 hone ha =>
                rw [hf] at hone
                cases hone
      | cons c cs =>
          cases cs with
          | nil =>
              refine ⟨fun out rem => ⟨fun h => ?_, fun h => ?_⟩,
                fun e => ⟨fun h => ?_, fun h => ?_⟩⟩
              · simp only [matchCmd, hf] at h
                exact Resolves.descend cmd verb rest c out rem hf
                  (((ih c).1 out rem).mp h)
              · cases h with
                | noMatch _ _ _ hnone =>
                    rw [List.countP_eq_length_filter, hf] at hnone
                    simp at hnone
                | descend _ _ _ c2 out2 rem2 hone hr =>
                    rw [hf] at hone
                    cases hone
                    simp only [matchCmd, hf]
                    exact ((ih c).1 _ _).mpr hr
              · simp only [matchCmd, hf] at h
                obtain ⟨t, he, ht⟩ := ((ih c).2 e).mp h
                exact ⟨t, he, Ambiguous.deeper cmd verb rest c t hf ht⟩
              · obtain ⟨t, he, ht⟩ := h
                cases ht with
                | here _ _ _ hmany =>
                    rw [List.countP_eq_length_filter, hf] at hmany
                    simp at hmany
                | deeper _ _ _ c2 t2 hone ha =>
                    rw [hf] at hone
                    cases hone
                    simp only [matchCmd, hf]
                    exact ((ih c).2 e).mpr ⟨t, he, ha⟩
          | cons d ds =>
              have hcount : 1 < cmd.children.countP (fun c => c.name == verb) := by
                rw [List.countP_eq_length_filter, hf]
                simp
              refine ⟨fun out rem => ⟨fun h => ?_, fun h => ?_⟩,
                fun e => ⟨fun h => ?_, fun h => ?_⟩⟩
              · simp [matchCmd, hf] at h
              · cases h with
                | noMatch _ _ _ hnone =>
                    rw [hnone] at hcount
                    exact absurd hcount (by omega)
                | descend _ _ _ c2 out2 rem2 hone hr =>
                    rw [hf] at hone
                    simp at hone
              · simp only [matchCmd, hf, Except.error.injEq] at h
                exact ⟨verb, h.symm, Ambiguous.here cmd verb rest hcount⟩
              · obtain ⟨t, he, ht⟩ := h
                cases ht with
                | here _ _ _ hmany =>
                    simp only [matchCmd, hf]
                    rw [he]
                | deeper _ _ _ c2 t2 hone ha =>
                    rw [hf] at hone
                    simp at hone

/-- A child command whose usage string carries display text after its name. -/
def chACmdT : CmdT := CmdT.mk "a sub" []

/-- A root with one child named `a`. -/
def rootCmdT : CmdT := CmdT.mk "root" [chACmdT]

/-- Witness for C1: resolving `["a", "x"]` descends into the child `a` and
leaves `["x"]` as its positional arguments. -/
theorem matchCmd_spec_witness : Resolves rootCmdT ["a", "x"] chACmdT ["x"] :=
  ((matchCmd_spec rootCmdT ["a", "x"]).1 chACmdT ["x"]).mp rfl

/-- Lexicographic comparison of character-code lists: the comparator
`a.use.localeCompare(b.use)` of src/mod.ts line 406 restricted to code-point
order (the command names exercised by the library are plain ASCII, where
`localeCompare` agrees with code-point order). -/
def lexLe : List Nat → List Nat → Bool
  | [], _ => true
  | _ :: _, [] => false
  | x :: xs, y :: ys =>
      if x < y then true
      else if y < x then false
      else lexLe xs ys

/-- String comparison by code points, the model of `localeCompare <= 0`. -/
def strLe (a b : String) : Bool :=
  lexLe (a.toList.map Char.toNat) (b.toList.map Char.toNat)

theorem lexLe_total (as bs : List Nat) : lexLe as bs = true ∨ lexLe bs as = true := by
  induction as generalizing bs with
  | nil => exact Or.inl rfl
  | cons x xs ih =>
      cases bs with
      | nil => exact Or.inr rfl
      | cons y ys =>
          by_cases h1 : x < y
          · exact Or.inl (by simp [lexLe, h1])
          · by_cases h2 : y < x
            · exact Or.inr (by simp [lexLe, h2])
            · rcases ih ys with h | h
              · exact Or.inl (by simp [lexLe, h1, h2, h])
              · exact Or.inr (by simp [lexLe, h1, h2, h])

theorem lexLe_trans (as bs cs : List Nat) (h1 : lexLe as bs = true)
    (h2 : lexLe bs cs = true) : lexLe as cs = true := by
  induction as generalizing bs cs with
  | nil => rfl
  | cons x xs ih =>
      cases bs with
      | nil => simp [lexLe] at h1
      | cons y ys =>
          cases cs with
          | nil => simp [lexLe] at h2
          | cons z zs =>
              by_cases hxy : x < y
              · have hxz : x < z := by
                  by_cases hyz : y < z
                  · omega
                  · by_cases hzy : z < y
                    · simp [lexLe, hyz, hzy] at h2
                    · omega
                simp [lexLe, hxz]
              · by_cases hyx : y < x
                · simp [lexLe, hxy, hyx] at h1
                · have hxy2 : x = y := by omega
                  subst hxy2
                  by_cases hxz : x < z
                  · simp [lexLe, hxz]
                  · by_cases hzx : z < x
                    · simp [lexLe, hxz, hzx] at h2
                    · have h1r : lexLe xs ys = true := by
                        simpa [lexLe, hxy, hyx] using h1
                      have h2r : lexLe ys zs = true := by
                        simpa [lexLe, hxz, hzx] using h2
                      simp [lexLe, hxz, hzx, ih ys zs h1r h2r]

theorem strLe_total (a b : String) : strLe a b = true ∨ strLe b a = true :=
  lexLe_total _ _

theorem strLe_trans (a b c : String) (h1 : strLe a b = true)
    (h2 : strLe b c = true) : strLe a c = true :=
  lexLe_trans _ _ _ h1 h2

/-- The ordering the help renderer sorts child commands by. -/
def cmdLe (a b : CmdT) : Prop := strLe a.use b.use = true

instance : DecidableRel cmdLe :=
  fun a b => inferInstanceAs (Decidable (strLe a.use b.use = true))

instance : IsTotal CmdT cmdLe :=
  ⟨fun a b => strLe_total a.use b.use⟩

instance : IsTrans CmdT cmdLe :=
  ⟨fun a b c => strLe_trans a.use b.use c.use⟩

/-- The effect of `Command.help` (src/mod.ts lines 400-407) on the node's
stored child list: with no children the list is untouched, otherwise
`this.commands.sort(...)` sorts the stored array itself (JavaScript
`Array.prototype.sort` is in place and stable) by usage string. -/
def helpCommandsAfter (cmds : List CmdT) : List CmdT :=
  if cmds.length = 0 then cmds else cmds.insertionSort cmdLe

/-- `Command.addCommand` (src/mod.ts lines 559-574) restricted to its effect
on the child list: reject a duplicate sibling name, otherwise append. -/
def addCommand (cmds : List CmdT) (c : CmdT) : Except String (List CmdT) :=
  if 0 < (cmds.filter (fun v => v.name == c.name)).length then
    Except.error ("a command " ++ c.name ++ " already exists")
  else Except.ok (cmds ++ [c])

/-- The children of the counterexample node, inserted in the order `b`, `a`. -/
def cmdUseB : CmdT := CmdT.mk "b" []

/-- The second-inserted child, named `a`. -/
def cmdUseA : CmdT := CmdT.mk "a" []

/-- Counterexample for C9: rendering help for a node whose children were
inserted in the order `b`, `a` does not leave the stored child list in
insertion order — the in-place sort reorders it to `a`, `b`. -/
theorem help_reorders_children :
    helpCommandsAfter [cmdUseB, cmdUseA] ≠ [cmdUseB, cmdUseA] := by
  intro h
  have e : helpCommandsAfter [cmdUseB, cmdUseA] = [cmdUseA, cmdUseB] := rfl
  rw [e] at h
  have h2 := congrArg (List.map CmdT.use) h
  exact absurd h2 (by decide)

/-- Amended C9: `addCommand` preserves insertion order (it appends), but a
help render replaces the node's stored child list by its stable lexicographic
sort by usage string — a permutation of the stored list, sorted, rather than
the insertion order itself. -/
theorem commands_order_spec (cmds : List CmdT) (c : CmdT) :
    (∀ res, addCommand cmds c = Except.ok res → res = cmds ++ [c])
    ∧ (helpCommandsAfter cmds).Perm cmds
    ∧ List.Pairwise cmdLe (helpCommandsAfter cmds) := by
  refine ⟨?_, ?_, ?_⟩
  · intro res h
    unfold addCommand at h
    split at h
    · cases h
    · exact (Except.ok.injEq _ _).mp h.symm
  · unfold helpCommandsAfter
    split
    · exact List.Perm.refl _
    · exact List.perm_insertionSort cmdLe cmds
  · unfold helpCommandsAfter
    split
    · have : cmds = [] := List.length_eq_zero.mp (by assumption)
      simp [this]
    · exact List.sorted_insertionSort cmdLe cmds

/-- Witness for the amended C9: adding `a` after `b` appends, preserving
insertion order until a help render. -/
theorem commands_order_spec_witness :
    [cmdUseB, cmdUseA] = [cmdUseB] ++ [cmdUseA] :=
  (commands_order_spec [cmdUseB] cmdUseA).1 [cmdUseB, cmdUseA] rfl

end Cobra
